import Mathlib

/-!
Verification of the Save/Load manager (`SaveLoadManager.h` / `SaveLoadManager.cpp`).

The development shallowly embeds the C++ source.  Conventions of the embedding:

* Bytes are `Nat`; every byte written by the code is `< 256` (they are `uint8`
  in C++).  Files are `List Nat`.  A file-system slot for one fixed path is
  `Option (List Nat)` (`none` = the file does not exist).
* `FString` values are modelled as their sequences of UTF-16 code units
  (`List Nat`, each unit `< 65536`, indices over the string contents, the
  terminating null of the in-memory representation is not part of the value).
* `float` values are modelled by their 32-bit IEEE-754 bit patterns
  (`Nat < 2^32`); the archive operators copy the 4 bytes of the value verbatim
  (little-endian host order), so the bit-pattern view is exact.
* `FMemoryReader.Serialize(dst, n)` copies `n` bytes when `offset + n` fits in
  the buffer and no prior error happened; otherwise it sets the sticky error
  flag and leaves `dst` untouched.  We model "dst untouched" by returning
  `none` and letting each caller keep its initial value.  Stack locals the C++
  leaves uninitialized on such failed reads are modelled as zero-initialized;
  buffer regions `AddUninitialized`/`ResizeAllocation` leave uninitialized and
  that a failed `Serialize` never fills are modelled as zero bytes.  None of
  the theorems below depend on those modelled-as-zero values except where a
  concrete corrupt input is evaluated, and there the modelling choice is
  stated next to the theorem.
* `FArchive::operator<<(bool)` serializes the value as a 32-bit integer;
  `operator<<` on an `enum class : uint8` serializes the underlying byte;
  `int32`/`uint32`/`float` serialize as 4 little-endian bytes.
* `FString` serialization (UnrealString.cpp): saving writes an `int32` count
  (`0` for the empty string; `Len+1` and the ANSI characters plus a null byte
  when every unit is `<= 0x7F`; `-(Len+1)` and the UTF-16LE units plus a null
  unit otherwise).  Loading reads the count, then the characters, forces the
  final character to null and drops it (an empty buffer stays empty).
* `TArray<uint8>` serialization: an `int32` count, then the raw bytes.
* `FString::operator==` compares with `Stricmp`, i.e. case-insensitively.
  `TChar<WIDECHAR>::ToLower` is modelled on the ASCII range (`A`-`Z` map to
  `a`-`z`); UE also folds a handful of Latin-1 letters, so theorems that
  compare two *different* keys restrict the keys to ASCII where the
  distinction could matter.
* The decode loops (`while (!MemoryReader.AtEnd())`) are given `length + 1`
  units of fuel.  Every iteration that starts without the error flag consumes
  at least the one type-tag byte, so a terminating C++ execution performs at
  most `length` iterations and the fuel is never exhausted on it; once the
  error flag is set with the offset strictly inside the buffer the offset can
  never advance again and the C++ loop never exits.  `none` (fuel exhausted)
  therefore models exactly the non-terminating executions.
-/

namespace SaveLoad

/-! ## Little-endian 32-bit scalars -/

/-- Little-endian byte decomposition of a 32-bit scalar (low byte first). -/
def le4 (n : Nat) : List Nat :=
  [n % 256, n / 256 % 256, n / 65536 % 256, n / 16777216 % 256]

/-- Reassemble a 32-bit scalar from four little-endian bytes. -/
def fromLE4 (b0 b1 b2 b3 : Nat) : Nat :=
  b0 + 256 * (b1 + 256 * (b2 + 256 * b3))

/-- Two's-complement encoding of an `int32` as four little-endian bytes. -/
def encodeInt32 (v : Int) : List Nat :=
  le4 (v % 4294967296).toNat

/-- Reinterpret an unsigned 32-bit scalar as a signed `int32`. -/
def uint32ToInt32 (u : Nat) : Int :=
  if u < 2147483648 then (u : Int) else (u : Int) - 4294967296

/-! ## FMemoryReader -/

/-- State of an `FMemoryReader`: the backing buffer, the cursor (`Tell()`),
and the sticky error flag (`IsError()`). -/
structure Reader where
  bytes : List Nat
  offset : Nat
  err : Bool
  deriving DecidableEq

/-- Fresh reader over a byte buffer (`FMemoryReader MemoryReader(ByteArray, true)`). -/
def mkReader (bs : List Nat) : Reader := ⟨bs, 0, false⟩

/-- Model of `FArchive::AtEnd()`: `Tell() >= TotalSize()`. -/
def Reader.atEnd (r : Reader) : Bool := r.bytes.length ≤ r.offset

/-- Model of `FMemoryReader::Serialize`: copy `n` bytes when they fit and no prior error
occurred, else set the error flag; a failed or skipped read returns `none`
(the destination keeps its previous contents). A zero-byte request is a no-op. -/
def Reader.serialize (r : Reader) (n : Nat) : Option (List Nat) × Reader :=
  if n ≠ 0 ∧ r.err = false then
    if r.offset + n ≤ r.bytes.length then
      (some ((r.bytes.drop r.offset).take n), { r with offset := r.offset + n })
    else
      (none, { r with err := true })
  else
    (none, r)

/-- Read one byte (serialization of a `uint8` / `enum class : uint8` field);
`dflt` is the destination's value before the read. -/
def Reader.readByte (r : Reader) (dflt : Nat) : Nat × Reader :=
  match r.serialize 1 with
  | (some bs, r') => (bs.headD dflt, r')
  | (none, r') => (dflt, r')

/-- Read an unsigned 32-bit scalar (4 bytes, little-endian);
`dflt` is the destination's value before the read. -/
def Reader.readUInt32 (r : Reader) (dflt : Nat) : Nat × Reader :=
  match r.serialize 4 with
  | (some bs, r') => (fromLE4 (bs.getD 0 0) (bs.getD 1 0) (bs.getD 2 0) (bs.getD 3 0), r')
  | (none, r') => (dflt, r')

/-- Read an `int32`; `dflt` is the destination's value before the read. -/
def Reader.readInt32 (r : Reader) (dflt : Int) : Int × Reader :=
  match r.serialize 4 with
  | (some bs, r') => (uint32ToInt32 (fromLE4 (bs.getD 0 0) (bs.getD 1 0) (bs.getD 2 0) (bs.getD 3 0)), r')
  | (none, r') => (dflt, r')

/-! ## FString serialization -/

/-- Model of `TChar::IsPureAnsi`, lifted to a whole string: every unit is `<= 0x7F`. -/
def isPureAnsi (s : List Nat) : Bool := s.all (fun c => c ≤ 127)

/-- UTF-16LE byte stream of a list of code units (two bytes per unit). -/
def encodeUnits : List Nat → List Nat
  | [] => []
  | c :: cs => c % 256 :: c / 256 % 256 :: encodeUnits cs

/-- Regroup a UTF-16LE byte stream into code units (dropping a trailing odd byte,
which cannot occur for the streams the saving path produces). -/
def pairUnits : List Nat → List Nat
  | b0 :: b1 :: rest => (b0 + 256 * b1) :: pairUnits rest
  | _ => []

/-- Saving side of `operator<<(FArchive&, FString&)`: count `0` for the empty
string; positive count plus ANSI bytes and a null byte for pure-ANSI strings;
negative count plus UTF-16LE units and a null unit otherwise. -/
def encodeFString (s : List Nat) : List Nat :=
  if isPureAnsi s then
    if s.length = 0 then encodeInt32 0
    else encodeInt32 ((s.length : Int) + 1) ++ s ++ [0]
  else
    encodeInt32 (-((s.length : Int) + 1)) ++ encodeUnits s ++ [0, 0]

/-- Loading side of `operator<<(FArchive&, FString&)`.  A count of `-2^31`
cannot be negated and raises the archive error (`SetCriticalError`); otherwise
the characters are read in one `Serialize` call and the terminator is dropped.
On a failed character read the C++ buffer holds uninitialized data of the
requested length, modelled as zero characters. -/
def Reader.readFString (r : Reader) : List Nat × Reader :=
  match r.readInt32 0 with
  | (saveNum, r1) =>
    if saveNum < 0 then
      if saveNum = -2147483648 then ([], { r1 with err := true })
      else
        match r1.serialize (2 * (-saveNum).toNat) with
        | (some bs, r2) => ((pairUnits bs).take ((-saveNum).toNat - 1), r2)
        | (none, r2) => (List.replicate ((-saveNum).toNat - 1) 0, r2)
    else if saveNum = 0 then ([], r1)
    else
      match r1.serialize saveNum.toNat with
      | (some bs, r2) => (bs.take (saveNum.toNat - 1), r2)
      | (none, r2) => (List.replicate (saveNum.toNat - 1) 0, r2)

/-! ## TArray of bytes serialization -/

/-- Loading side of `operator<<(FArchive&, TArray<uint8>&)`: read the `int32`
count into `ArrayNum` (previously `0` for the freshly constructed arrays used
here), resize, then read the bytes in one `Serialize` call.  A failed byte
read leaves the resized buffer uninitialized, modelled as zero bytes; a
negative count never allocates and is modelled as an empty array with the
error flag raised. -/
def Reader.readByteArray (r : Reader) : List Nat × Reader :=
  match r.readInt32 0 with
  | (num, r1) =>
    if num < 0 then ([], { r1 with err := true })
    else if num = 0 then ([], r1)
    else
      match r1.serialize num.toNat with
      | (some bs, r2) => (bs, r2)
      | (none, r2) => (List.replicate num.toNat 0, r2)

/-! ## FSerializedData -/

/-- Model of `FSerializedData`: one record, `{ DataType, Key, Data }`.  `DataType` is
the underlying byte of the `EDataType` value. -/
structure FSerializedData where
  DataType : Nat
  Key : List Nat
  Data : List Nat
  deriving DecidableEq

/-- Saving side of `operator<<(FArchive&, FSerializedData&)`:
type tag byte, then the key string, then the payload count and bytes. -/
def encodeRecord (rec : FSerializedData) : List Nat :=
  [rec.DataType % 256] ++ encodeFString rec.Key
    ++ encodeInt32 (rec.Data.length : Int) ++ rec.Data

/-- Byte image of a whole record list, records back to back. -/
def encodeAll : List FSerializedData → List Nat
  | [] => []
  | rec :: recs => encodeRecord rec ++ encodeAll recs

/-- Loading side of `operator<<(FArchive&, FSerializedData&)` applied to a
freshly constructed `FSerializedData` (key and payload start empty; the
uninitialized stack `DataType` is modelled as `0`). -/
def Reader.readRecord (r : Reader) : FSerializedData × Reader :=
  match r.readByte 0 with
  | (t, r1) =>
    match r1.readFString with
    | (k, r2) =>
      match r2.readByteArray with
      | (d, r3) => (⟨t, k, d⟩, r3)

/-! ## Key comparison -/

/-- Model of `TChar<WIDECHAR>::ToLower`, modelled on the ASCII range. -/
def toLowerChar (c : Nat) : Nat := if 65 ≤ c ∧ c ≤ 90 then c + 32 else c

/-- Case folding of a whole key. -/
def caseFold (s : List Nat) : List Nat := s.map toLowerChar

/-- Model of `FString::operator==` (`Stricmp`): case-insensitive equality.  This is the
comparison `SaveData`/`LoadData`/`DeleteData` apply to keys. -/
def caseEq (x y : List Nat) : Bool := caseFold x = caseFold y

/-! ## The decode loops -/

/-- Body of `while (!MemoryReader.AtEnd()) { MemoryReader << SerializedData;
ExistingData.Add(SerializedData); }` in `SaveData`/`DeleteData`, with fuel.
`none` models the executions on which the C++ loop never terminates (see the
header comment). -/
def readAllLoop : Nat → Reader → List FSerializedData → Option (List FSerializedData × Reader)
  | 0, _, _ => none
  | fuel + 1, r, acc =>
    if r.atEnd then some (acc.reverse, r)
    else
      match r.readRecord with
      | (rec, r') => readAllLoop fuel r' (rec :: acc)

/-- Decode a whole file into its record list (the read loop started on a fresh
reader, with enough fuel for every terminating execution). -/
def readAllRecords (bytes : List Nat) : Option (List FSerializedData × Reader) :=
  readAllLoop (bytes.length + 1) (mkReader bytes) []

/-- Record list of a file, when the decode loop terminates. -/
def decodeStore (bytes : List Nat) : Option (List FSerializedData) :=
  (readAllRecords bytes).map (fun p => p.1)

/-- Search loop of `LoadData`: read records until one whose key compares equal
(case-insensitively) to `Key`, returning its payload and type tag; `some none`
is the `return false` path (end of stream reached). -/
def loadLoop : Nat → List Nat → Reader → Option (Option (List Nat × Nat))
  | 0, _, _ => none
  | fuel + 1, key, r =>
    if r.atEnd then some none
    else
      match r.readRecord with
      | (rec, r') =>
        if caseEq rec.Key key then some (some (rec.Data, rec.DataType))
        else loadLoop fuel key r'

/-! ## The store operations

Each operation acts on the file at one fixed path, modelled as
`store : Option (List Nat)`.  `readOk` / `writeOk` are the outcomes the
file-system collaborator would give to `LoadFileToArray` / `SaveArrayToFile`
(the source checks only their boolean results).  The result is `none` when the
decode loop diverges, otherwise `some` of the returned boolean and the file
contents after the call.  `SaveArrayToFile` failures are modelled as leaving
the previous contents (the source itself guarantees no atomicity here, but no
theorem below depends on the contents after a failed write). -/

/-- Model of `USaveLoadManager::SaveData` (SaveLoadManager.cpp, lines 69-142). -/
def SaveData (Key Data : List Nat) (DataType : Nat)
    (store : Option (List Nat)) (readOk writeOk : Bool) :
    Option (Bool × Option (List Nat)) :=
  match store with
  | some bytes =>
    if readOk then
      match readAllRecords bytes with
      | none => none
      | some (existing, _) =>
        let remaining := existing.filter (fun e => !(caseEq e.Key Key))
        let out := encodeAll (remaining ++ [⟨DataType, Key, Data⟩])
        if writeOk then some (true, some out) else some (false, some bytes)
    else some (false, some bytes)
  | none =>
    let out := encodeAll [⟨DataType, Key, Data⟩]
    if writeOk then some (true, some out) else some (false, none)

/-- Model of `USaveLoadManager::LoadData` (SaveLoadManager.cpp, lines 144-177).  The
first component of the result is `some (OutData, OutDataType)` when the
function returns `true`, and `none` when it returns `false` (missing file,
failed read, or end of stream without a match — the out-parameters are then
left untouched); the second component is the file contents after the call. -/
def LoadData (Key : List Nat) (store : Option (List Nat)) (readOk : Bool) :
    Option (Option (List Nat × Nat) × Option (List Nat)) :=
  match store with
  | some bytes =>
    if readOk then
      match loadLoop (bytes.length + 1) Key (mkReader bytes) with
      | none => none
      | some res => some (res, some bytes)
    else some (none, some bytes)
  | none => some (none, none)

/-- Model of `USaveLoadManager::DeleteData` (SaveLoadManager.cpp, lines 179-227). -/
def DeleteData (Key : List Nat) (store : Option (List Nat)) (readOk writeOk : Bool) :
    Option (Bool × Option (List Nat)) :=
  match store with
  | some bytes =>
    if readOk then
      match readAllRecords bytes with
      | none => none
      | some (existing, _) =>
        let remaining := existing.filter (fun e => !(caseEq e.Key Key))
        let out := encodeAll remaining
        if writeOk then some (true, some out) else some (false, some bytes)
    else some (false, some bytes)
  | none => some (false, none)

/-! ## Typed value codecs (SaveLoadManager.h, lines 217-430) -/

/-- Model of `USaveLoadManager::FloatToByteArray` — the float's 4 bytes, host order
(the argument is the float's bit pattern). -/
def FloatToByteArray (bits : Nat) : List Nat := le4 bits

/-- Model of `USaveLoadManager::ByteArrayToFloat` — `float Value = 0.0f;` then a 4-byte
read (the result is the float's bit pattern; `0.0f` has pattern `0`). -/
def ByteArrayToFloat (bs : List Nat) : Nat := ((mkReader bs).readUInt32 0).1

/-- Model of `USaveLoadManager::BoolToByteArray` — a bool serializes as a legacy 32-bit
integer, `1` or `0`. -/
def BoolToByteArray (v : Bool) : List Nat := le4 (if v then 1 else 0)

/-- Model of `USaveLoadManager::ByteArrayToBool` — `bool Value = false;` feeds
`OldUBoolValue = 0` into the 4-byte read; the result is `OldUBoolValue != 0`. -/
def ByteArrayToBool (bs : List Nat) : Bool := ((mkReader bs).readUInt32 0).1 ≠ 0

/-- Model of `USaveLoadManager::IntToByteArray`. -/
def IntToByteArray (v : Int) : List Nat := encodeInt32 v

/-- Model of `USaveLoadManager::ByteArrayToInt` — `int32 Value = 0;` then a 4-byte read. -/
def ByteArrayToInt (bs : List Nat) : Int := ((mkReader bs).readInt32 0).1

/-- Model of `USaveLoadManager::FStringToByteArray`. -/
def FStringToByteArray (s : List Nat) : List Nat := encodeFString s

/-- Model of `USaveLoadManager::ByteArrayToFString`. -/
def ByteArrayToFString (bs : List Nat) : List Nat := ((mkReader bs).readFString).1

/-- Model of `USaveLoadManager::EnumToByteArray(uint8)` — one byte through the archive. -/
def EnumToByteArrayU8 (v : Nat) : List Nat := [v % 256]

/-- Model of `USaveLoadManager::EnumToByteArray(uint16)` — `Memcpy` of the two bytes. -/
def EnumToByteArrayU16 (v : Nat) : List Nat := [v % 256, v / 256 % 256]

/-- Model of `USaveLoadManager::EnumToByteArray(uint32)` — `Memcpy` of the four bytes. -/
def EnumToByteArrayU32 (v : Nat) : List Nat := le4 v

/-- Model of `USaveLoadManager::EnumToByteArray(uint64)` — `Memcpy` of the eight bytes. -/
def EnumToByteArrayU64 (v : Nat) : List Nat :=
  le4 (v % 4294967296) ++ le4 (v / 4294967296)

/-- Model of `USaveLoadManager::ByteArrayToEnum` — `uint8 EnumValue = 0;` then a single
one-byte read, whatever width the encoder used. -/
def ByteArrayToEnum (bs : List Nat) : Nat := ((mkReader bs).readByte 0).1

/-- Model of `FTransform` modelled by the IEEE-754 bit patterns of its ten float
components, in serialization order: `Rotation` (X, Y, Z, W), `Translation`
(X, Y, Z), `Scale3D` (X, Y, Z). -/
structure FTransformBits where
  rotX : Nat
  rotY : Nat
  rotZ : Nat
  rotW : Nat
  transX : Nat
  transY : Nat
  transZ : Nat
  scaleX : Nat
  scaleY : Nat
  scaleZ : Nat
  deriving DecidableEq

/-- Bit pattern of `1.0f` (`0x3F800000`), the component default of the
identity `FTransform`. -/
def oneBits : Nat := 1065353216

/-- Model of `USaveLoadManager::TransformToByteArray` — `Ar << Rotation; Ar <<
Translation; Ar << Scale3D;`, each component four bytes. -/
def TransformToByteArray (t : FTransformBits) : List Nat :=
  le4 t.rotX ++ le4 t.rotY ++ le4 t.rotZ ++ le4 t.rotW
    ++ le4 t.transX ++ le4 t.transY ++ le4 t.transZ
    ++ le4 t.scaleX ++ le4 t.scaleY ++ le4 t.scaleZ

/-- Model of `USaveLoadManager::ByteArrayToTransform` — `FTransform Value;` starts as
the identity transform, then the ten components are read in order. -/
def ByteArrayToTransform (bs : List Nat) : FTransformBits :=
  match (mkReader bs).readUInt32 0 with
  | (rx, r1) =>
  match r1.readUInt32 0 with
  | (ry, r2) =>
  match r2.readUInt32 0 with
  | (rz, r3) =>
  match r3.readUInt32 oneBits with
  | (rw, r4) =>
  match r4.readUInt32 0 with
  | (tx, r5) =>
  match r5.readUInt32 0 with
  | (ty, r6) =>
  match r6.readUInt32 0 with
  | (tz, r7) =>
  match r7.readUInt32 oneBits with
  | (sx, r8) =>
  match r8.readUInt32 oneBits with
  | (sy, r9) =>
  match r9.readUInt32 oneBits with
  | (sz, _) => ⟨rx, ry, rz, rw, tx, ty, tz, sx, sy, sz⟩

/-! ## Well-formedness

These predicates record facts that hold of every value the C++ types can
express: code units of a `TCHAR` string are 16-bit, `TArray` sizes fit in an
`int32`, payload bytes are `uint8`. -/

/-- Every value an `FString` can hold satisfies this. -/
@[reducible] def wfKey (k : List Nat) : Prop :=
  (∀ c ∈ k, c < 65536) ∧ k.length + 1 < 2147483648

/-- Every value a `TArray<uint8>` can hold satisfies this. -/
@[reducible] def wfData (d : List Nat) : Prop :=
  (∀ b ∈ d, b < 256) ∧ d.length < 2147483648

/-- Every record the C++ structure can hold satisfies this. -/
@[reducible] def wfRecord (rec : FSerializedData) : Prop :=
  rec.DataType < 256 ∧ wfKey rec.Key ∧ wfData rec.Data

/-- All records of a list are well formed. -/
@[reducible] def wfRecords (recs : List FSerializedData) : Prop :=
  ∀ rec ∈ recs, wfRecord rec

/-- Every byte buffer read from disk satisfies this. -/
@[reducible] def wfBytes (bs : List Nat) : Prop := ∀ b ∈ bs, b < 256

/-- Well-formedness of the file-system slot. -/
@[reducible] def wfStore : Option (List Nat) → Prop
  | none => True
  | some bs => wfBytes bs

/-- A transform whose components are genuine 32-bit patterns. -/
@[reducible] def wfTransform (t : FTransformBits) : Prop :=
  t.rotX < 4294967296 ∧ t.rotY < 4294967296 ∧ t.rotZ < 4294967296 ∧
  t.rotW < 4294967296 ∧ t.transX < 4294967296 ∧ t.transY < 4294967296 ∧
  t.transZ < 4294967296 ∧ t.scaleX < 4294967296 ∧ t.scaleY < 4294967296 ∧
  t.scaleZ < 4294967296

end SaveLoad

namespace SaveLoad

/-! ## Basic facts about the byte helpers -/

theorem le4_length (n : Nat) : (le4 n).length = 4 := by
  simp [le4]

theorem le4_lt (n : Nat) : ∀ b ∈ le4 n, b < 256 := by
  intro b hb
  simp [le4] at hb
  rcases hb with h | h | h | h <;> omega

theorem fromLE4_le4 (n : Nat) (h : n < 4294967296) :
    fromLE4 (n % 256) (n / 256 % 256) (n / 65536 % 256) (n / 16777216 % 256) = n := by
  simp only [fromLE4]
  omega

theorem fromLE4_lt (b0 b1 b2 b3 : Nat) (h0 : b0 < 256) (h1 : b1 < 256)
    (h2 : b2 < 256) (h3 : b3 < 256) : fromLE4 b0 b1 b2 b3 < 4294967296 := by
  simp only [fromLE4]
  omega

theorem uint32ToInt32_toNat_emod (v : Int) (h1 : -2147483648 ≤ v) (h2 : v < 2147483648) :
    uint32ToInt32 (v % 4294967296).toNat = v := by
  have hnn : (0 : Int) ≤ v % 4294967296 := Int.emod_nonneg v (by decide)
  have hlt : v % 4294967296 < 4294967296 := Int.emod_lt_of_pos v (by decide)
  rcases le_or_lt 0 v with hv | hv
  · have : v % 4294967296 = v := Int.emod_eq_of_lt hv (by omega)
    simp only [uint32ToInt32, this]
    rw [if_pos]
    · omega
    · omega
  · have : v % 4294967296 = v + 4294967296 := by
      have := Int.emod_emod_of_dvd v (dvd_refl (4294967296 : Int))
      omega
    simp only [uint32ToInt32, this]
    rw [if_neg]
    · omega
    · omega

theorem uint32ToInt32_range (u : Nat) (h : u < 4294967296) :
    -2147483648 ≤ uint32ToInt32 u ∧ uint32ToInt32 u < 2147483648 := by
  simp only [uint32ToInt32]
  split <;> omega

theorem encodeUnits_length (s : List Nat) : (encodeUnits s).length = 2 * s.length := by
  induction s with
  | nil => simp [encodeUnits]
  | cons c cs ih => simp [encodeUnits, ih]; omega

theorem encodeUnits_lt (s : List Nat) : ∀ b ∈ encodeUnits s, b < 256 := by
  induction s with
  | nil => simp [encodeUnits]
  | cons c cs ih =>
    intro b hb
    simp [encodeUnits] at hb
    rcases hb with h | h | h
    · omega
    · omega
    · exact ih b h

theorem pairUnits_encodeUnits (s : List Nat) (h : ∀ c ∈ s, c < 65536) :
    pairUnits (encodeUnits s ++ [0, 0]) = s ++ [0] := by
  induction s with
  | nil => simp [encodeUnits, pairUnits]
  | cons c cs ih =>
    have hc : c < 65536 := h c (by simp)
    have hrec := ih (fun x hx => h x (by simp [hx]))
    simp only [encodeUnits, List.cons_append, pairUnits, List.append_eq] at hrec ⊢
    rw [hrec]
    have : c % 256 + 256 * (c / 256 % 256) = c := by omega
    simp [this]

theorem getD_lt (bs : List Nat) (h : ∀ b ∈ bs, b < 256) (i : Nat) : bs.getD i 0 < 256 := by
  induction bs generalizing i with
  | nil => simp [List.getD]
  | cons b rest ih =>
    cases i with
    | zero => simpa using h b (by simp)
    | succ j => simpa using ih (fun x hx => h x (by simp [hx])) j

end SaveLoad

namespace SaveLoad

/-! ## Positioned reads over an encoded buffer

Each lemma describes one archive read on a reader whose cursor sits exactly at
the start of the encoded form of the value being read. -/

theorem serialize_at (B done mid rest : List Nat) (off : Nat)
    (hB : B = done ++ mid ++ rest) (hoff : off = done.length) (hne : mid.length ≠ 0) :
    Reader.serialize ⟨B, off, false⟩ mid.length
      = (some mid, ⟨B, off + mid.length, false⟩) := by
  subst hB hoff
  have hbound : done.length + mid.length ≤ (done ++ mid ++ rest).length := by
    simp [List.length_append]
  simp only [Reader.serialize]
  rw [if_pos ⟨hne, trivial⟩, if_pos hbound]

  rw [List.append_assoc, List.drop_left, List.take_left]

theorem readByte_at (B done rest : List Nat) (b dflt off : Nat)
    (hB : B = done ++ [b] ++ rest) (hoff : off = done.length) :
    Reader.readByte ⟨B, off, false⟩ dflt = (b, ⟨B, off + 1, false⟩) := by
  have h := serialize_at B done [b] rest off hB hoff (by simp)
  simp only [List.length_cons, List.length_nil, Nat.zero_add] at h
  simp [Reader.readByte, h]

theorem readUInt32_at (B done rest : List Nat) (u dflt off : Nat)
    (hu : u < 4294967296) (hB : B = done ++ le4 u ++ rest) (hoff : off = done.length) :
    Reader.readUInt32 ⟨B, off, false⟩ dflt = (u, ⟨B, off + 4, false⟩) := by
  have h := serialize_at B done (le4 u) rest off hB hoff (by simp [le4])
  rw [le4_length] at h
  simp only [Reader.readUInt32]
  rw [h]
  simp only [le4, List.getD_cons_zero, List.getD_cons_succ]
  rw [fromLE4_le4 u hu]

theorem readInt32_at (B done rest : List Nat) (v : Int) (dflt : Int) (off : Nat)
    (h1 : -2147483648 ≤ v) (h2 : v < 2147483648)
    (hB : B = done ++ encodeInt32 v ++ rest) (hoff : off = done.length) :
    Reader.readInt32 ⟨B, off, false⟩ dflt = (v, ⟨B, off + 4, false⟩) := by
  have h := serialize_at B done (encodeInt32 v) rest off hB hoff (by simp [encodeInt32, le4])
  have hlen : (encodeInt32 v).length = 4 := by simp [encodeInt32, le4]
  rw [hlen] at h
  simp only [Reader.readInt32]
  rw [h]
  simp only [encodeInt32, le4, List.getD_cons_zero, List.getD_cons_succ]
  have hnn : (0 : Int) ≤ v % 4294967296 := Int.emod_nonneg v (by decide)
  have hlt : v % 4294967296 < 4294967296 := Int.emod_lt_of_pos v (by decide)
  rw [fromLE4_le4 _ (by omega)]
  rw [uint32ToInt32_toNat_emod v h1 h2]

end SaveLoad

namespace SaveLoad

theorem readFString_at (B done rest s : List Nat) (off : Nat)
    (hwf : wfKey s) (hB : B = done ++ encodeFString s ++ rest) (hoff : off = done.length) :
    Reader.readFString ⟨B, off, false⟩
      = (s, ⟨B, off + (encodeFString s).length, false⟩) := by
  obtain ⟨hunits, hlen⟩ := hwf
  by_cases ha : isPureAnsi s
  · by_cases hz : s.length = 0
    · have hs : s = [] := List.length_eq_zero.mp hz
      subst hs
      have henc : encodeFString [] = encodeInt32 0 := by simp [encodeFString, isPureAnsi]
      rw [henc] at hB
      have h1 := readInt32_at B done rest 0 0 off (by omega) (by omega) hB hoff
      simp only [Reader.readFString, h1]
      norm_num [henc, encodeInt32, le4]
    · have henc : encodeFString s = encodeInt32 ((s.length : Int) + 1) ++ (s ++ [0]) := by
        simp [encodeFString, ha, hz]
      have hB1 : B = done ++ encodeInt32 ((s.length : Int) + 1) ++ ((s ++ [0]) ++ rest) := by
        rw [hB, henc]
        simp [List.append_assoc]
      have h1 := readInt32_at B done ((s ++ [0]) ++ rest) ((s.length : Int) + 1) 0 off
        (by omega) (by omega) hB1 hoff
      have hB2 : B = (done ++ encodeInt32 ((s.length : Int) + 1)) ++ (s ++ [0]) ++ rest := by
        rw [hB1]; simp [List.append_assoc]
      have hoff2 : off + 4 = (done ++ encodeInt32 ((s.length : Int) + 1)).length := by
        simp [hoff, encodeInt32, le4]
      have h2 := serialize_at B (done ++ encodeInt32 ((s.length : Int) + 1)) (s ++ [0]) rest
        (off + 4) hB2 hoff2 (by simp)
      have htoNat : (((s.length : Int) + 1)).toNat = s.length + 1 := by omega
      have hslen : (s ++ [0]).length = s.length + 1 := by simp
      simp only [Reader.readFString, h1]
      rw [if_neg (by omega), if_neg (by omega), htoNat]
      rw [hslen] at h2
      rw [h2]
      dsimp only
      have htake : (s ++ [0]).take (s.length + 1 - 1) = s := by
        simp [List.take_left]
      have hfin : (encodeFString s).length = 4 + (s.length + 1) := by
        rw [henc]; simp [encodeInt32, le4]; omega
      rw [htake, hfin]
      simp only [Prod.mk.injEq, Reader.mk.injEq, eq_self_iff_true, true_and, and_true]
      try omega
  · have henc : encodeFString s = encodeInt32 (-((s.length : Int) + 1)) ++ (encodeUnits s ++ [0, 0]) := by
      simp [encodeFString, ha]
    have hB1 : B = done ++ encodeInt32 (-((s.length : Int) + 1)) ++ ((encodeUnits s ++ [0, 0]) ++ rest) := by
      rw [hB, henc]
      simp [List.append_assoc]
    have h1 := readInt32_at B done ((encodeUnits s ++ [0, 0]) ++ rest) (-((s.length : Int) + 1)) 0 off
      (by omega) (by omega) hB1 hoff
    have hB2 : B = (done ++ encodeInt32 (-((s.length : Int) + 1))) ++ (encodeUnits s ++ [0, 0]) ++ rest := by
      rw [hB1]; simp [List.append_assoc]
    have hoff2 : off + 4 = (done ++ encodeInt32 (-((s.length : Int) + 1))).length := by
      simp [hoff, encodeInt32, le4]
    have h2 := serialize_at B (done ++ encodeInt32 (-((s.length : Int) + 1))) (encodeUnits s ++ [0, 0]) rest
      (off + 4) hB2 hoff2 (by simp)
    have htoNat : (-(-((s.length : Int) + 1))).toNat = s.length + 1 := by omega
    have hulen : (encodeUnits s ++ [0, 0]).length = 2 * (s.length + 1) := by
      simp [encodeUnits_length]; omega
    simp only [Reader.readFString, h1]
    rw [if_pos (by omega), if_neg (by omega), htoNat]
    rw [hulen] at h2
    rw [h2]
    dsimp only
    have hpair : (pairUnits (encodeUnits s ++ [0, 0])).take (s.length + 1 - 1) = s := by
      rw [pairUnits_encodeUnits s hunits]
      simp [List.take_left]
    have hfin : (encodeFString s).length = 4 + 2 * (s.length + 1) := by
      rw [henc]; simp [encodeInt32, le4, encodeUnits_length]; omega
    rw [hpair, hfin]
    simp only [Prod.mk.injEq, Reader.mk.injEq, eq_self_iff_true, true_and, and_true]
    try omega

theorem readByteArray_at (B done rest d : List Nat) (off : Nat)
    (hlen : d.length < 2147483648)
    (hB : B = done ++ (encodeInt32 (d.length : Int) ++ d) ++ rest)
    (hoff : off = done.length) :
    Reader.readByteArray ⟨B, off, false⟩ = (d, ⟨B, off + (4 + d.length), false⟩) := by
  have hB1 : B = done ++ encodeInt32 (d.length : Int) ++ (d ++ rest) := by
    rw [hB]; simp [List.append_assoc]
  have h1 := readInt32_at B done (d ++ rest) (d.length : Int) 0 off
    (by omega) (by omega) hB1 hoff
  by_cases hz : d.length = 0
  · have hd : d = [] := List.length_eq_zero.mp hz
    subst hd
    simp only [Reader.readByteArray, h1]
    norm_num
  · have hB2 : B = (done ++ encodeInt32 (d.length : Int)) ++ d ++ rest := by
      rw [hB1]; simp [List.append_assoc]
    have hoff2 : off + 4 = (done ++ encodeInt32 (d.length : Int)).length := by
      simp [hoff, encodeInt32, le4]
    have h2 := serialize_at B (done ++ encodeInt32 (d.length : Int)) d rest (off + 4) hB2 hoff2 hz
    have htoNat : ((d.length : Int)).toNat = d.length := by omega
    simp only [Reader.readByteArray, h1]
    rw [if_neg (by omega), if_neg (by omega), htoNat, h2]
    dsimp only
    simp only [Prod.mk.injEq, Reader.mk.injEq, eq_self_iff_true, true_and, and_true]
    try omega

end SaveLoad

namespace SaveLoad

theorem encodeRecord_length (rec : FSerializedData) :
    (encodeRecord rec).length
      = 1 + (encodeFString rec.Key).length + (4 + rec.Data.length) := by
  simp [encodeRecord, encodeInt32, le4]
  omega

theorem readRecord_at (B done rest : List Nat) (rec : FSerializedData) (off : Nat)
    (hwf : wfRecord rec) (hB : B = done ++ encodeRecord rec ++ rest)
    (hoff : off = done.length) :
    Reader.readRecord ⟨B, off, false⟩
      = (rec, ⟨B, off + (encodeRecord rec).length, false⟩) := by
  obtain ⟨ht, hkey, hdata⟩ := hwf
  have hB1 : B = done ++ [rec.DataType % 256]
      ++ (encodeFString rec.Key ++ ((encodeInt32 (rec.Data.length : Int) ++ rec.Data) ++ rest)) := by
    rw [hB]
    simp [encodeRecord, List.append_assoc]
  have h1 := readByte_at B done
    (encodeFString rec.Key ++ ((encodeInt32 (rec.Data.length : Int) ++ rec.Data) ++ rest))
    (rec.DataType % 256) 0 off hB1 hoff
  have hmod : rec.DataType % 256 = rec.DataType := Nat.mod_eq_of_lt ht
  have hB2 : B = (done ++ [rec.DataType % 256]) ++ encodeFString rec.Key
      ++ ((encodeInt32 (rec.Data.length : Int) ++ rec.Data) ++ rest) := by
    rw [hB1]; simp [List.append_assoc]
  have hoff2 : off + 1 = (done ++ [rec.DataType % 256]).length := by
    simp [hoff]
  have h2 := readFString_at B (done ++ [rec.DataType % 256])
    ((encodeInt32 (rec.Data.length : Int) ++ rec.Data) ++ rest) rec.Key (off + 1)
    hkey hB2 hoff2
  have hB3 : B = (done ++ [rec.DataType % 256] ++ encodeFString rec.Key)
      ++ (encodeInt32 (rec.Data.length : Int) ++ rec.Data) ++ rest := by
    rw [hB2]; simp [List.append_assoc]
  have hoff3 : off + 1 + (encodeFString rec.Key).length
      = (done ++ [rec.DataType % 256] ++ encodeFString rec.Key).length := by
    simp [hoff]
    omega
  have h3 := readByteArray_at B (done ++ [rec.DataType % 256] ++ encodeFString rec.Key)
    rest rec.Data (off + 1 + (encodeFString rec.Key).length) hdata.2 hB3 hoff3
  simp only [Reader.readRecord, h1, h2, h3, hmod]
  simp only [Prod.mk.injEq, Reader.mk.injEq, eq_self_iff_true, true_and, and_true]
  rw [encodeRecord_length]
  omega

theorem encodeRecord_length_pos (rec : FSerializedData) :
    0 < (encodeRecord rec).length := by
  rw [encodeRecord_length]
  omega

theorem length_le_encodeAll (recs : List FSerializedData) :
    recs.length ≤ (encodeAll recs).length := by
  induction recs with
  | nil => simp [encodeAll]
  | cons rec rest ih =>
    have := encodeRecord_length_pos rec
    simp [encodeAll]
    omega

theorem readAllLoop_at (recs : List FSerializedData) (B done : List Nat)
    (acc : List FSerializedData) (fuel : Nat)
    (hB : B = done ++ encodeAll recs) (hfuel : recs.length < fuel)
    (hwf : wfRecords recs) :
    readAllLoop fuel ⟨B, done.length, false⟩ acc
      = some (acc.reverse ++ recs, ⟨B, B.length, false⟩) := by
  induction recs generalizing done acc fuel with
  | nil =>
    have hBd : B = done := by simpa [encodeAll] using hB
    obtain ⟨fuel', rfl⟩ : ∃ f, fuel = f + 1 := ⟨fuel - 1, by omega⟩
    simp [readAllLoop, Reader.atEnd, hBd]
  | cons rec rest ih =>
    obtain ⟨fuel', rfl⟩ : ∃ f, fuel = f + 1 := ⟨fuel - 1, by omega⟩
    have hBlen : done.length < B.length := by
      have := encodeRecord_length_pos rec
      rw [hB]
      simp [encodeAll]
      omega
    have hB1 : B = done ++ encodeRecord rec ++ encodeAll rest := by
      rw [hB]; simp [encodeAll, List.append_assoc]
    have h1 := readRecord_at B done (encodeAll rest) rec done.length
      (hwf rec (by simp)) hB1 rfl
    have hB2 : B = (done ++ encodeRecord rec) ++ encodeAll rest := hB1
    have ihx := ih (done ++ encodeRecord rec) (rec :: acc) fuel' hB2
      (by simpa using Nat.lt_of_succ_lt_succ hfuel)
      (fun r hr => hwf r (by simp [hr]))
    simp only [readAllLoop, Reader.atEnd]
    rw [if_neg (by simp; try omega)]
    rw [h1]
    have hlen2 : done.length + (encodeRecord rec).length = (done ++ encodeRecord rec).length := by
      simp
    rw [hlen2, ihx]
    simp

theorem readAllRecords_encodeAll (recs : List FSerializedData) (hwf : wfRecords recs) :
    readAllRecords (encodeAll recs)
      = some (recs, ⟨encodeAll recs, (encodeAll recs).length, false⟩) := by
  have h := readAllLoop_at recs (encodeAll recs) [] [] ((encodeAll recs).length + 1)
    (by simp) (by have := length_le_encodeAll recs; omega) hwf
  simpa [readAllRecords, mkReader] using h

theorem decodeStore_encodeAll (recs : List FSerializedData) (hwf : wfRecords recs) :
    decodeStore (encodeAll recs) = some recs := by
  simp [decodeStore, readAllRecords_encodeAll recs hwf]

theorem loadLoop_at (recs : List FSerializedData) (B done key : List Nat) (fuel : Nat)
    (hB : B = done ++ encodeAll recs) (hfuel : recs.length < fuel)
    (hwf : wfRecords recs) :
    loadLoop fuel key ⟨B, done.length, false⟩
      = some ((recs.find? (fun r => caseEq r.Key key)).map (fun r => (r.Data, r.DataType))) := by
  induction recs generalizing done fuel with
  | nil =>
    have hBd : B = done := by simpa [encodeAll] using hB
    obtain ⟨fuel', rfl⟩ : ∃ f, fuel = f + 1 := ⟨fuel - 1, by omega⟩
    simp [loadLoop, Reader.atEnd, hBd]
  | cons rec rest ih =>
    obtain ⟨fuel', rfl⟩ : ∃ f, fuel = f + 1 := ⟨fuel - 1, by omega⟩
    have hBlen : done.length < B.length := by
      have := encodeRecord_length_pos rec
      rw [hB]
      simp [encodeAll]
      omega
    have hB1 : B = done ++ encodeRecord rec ++ encodeAll rest := by
      rw [hB]; simp [encodeAll, List.append_assoc]
    have h1 := readRecord_at B done (encodeAll rest) rec done.length
      (hwf rec (by simp)) hB1 rfl
    simp only [loadLoop, Reader.atEnd]
    rw [if_neg (by simp; try omega)]
    rw [h1]
    by_cases hm : caseEq rec.Key key
    · simp [hm, List.find?_cons]
    · have hB2 : B = (done ++ encodeRecord rec) ++ encodeAll rest := hB1
      have ihx := ih (done ++ encodeRecord rec) fuel' hB2
        (by simpa using Nat.lt_of_succ_lt_succ hfuel)
        (fun r hr => hwf r (by simp [hr]))
      have hlen2 : done.length + (encodeRecord rec).length = (done ++ encodeRecord rec).length := by
        simp
      simp only [hm, if_neg]
      rw [hlen2, ihx]
      simp [List.find?_cons, hm]

end SaveLoad

namespace SaveLoad

/-! ## Well-formedness of whatever the decoder produces

Every record the decode loop can produce from a buffer of genuine bytes is
well formed, whatever the buffer's contents. -/

theorem pairUnits_lt (bs : List Nat) (h : ∀ b ∈ bs, b < 256) :
    ∀ u ∈ pairUnits bs, u < 65536 := by
  match bs with
  | [] => simp [pairUnits]
  | [b] => simp [pairUnits]
  | b0 :: b1 :: rest =>
    intro u hu
    have h0 : b0 < 256 := h b0 (by simp)
    have h1 : b1 < 256 := h b1 (by simp)
    simp only [pairUnits, List.mem_cons] at hu
    rcases hu with h' | h'
    · omega
    · exact pairUnits_lt rest (fun b hb => h b (by simp [hb])) u h'

theorem serialize_some_facts (r : Reader) (n : Nat) (bs : List Nat) (r' : Reader)
    (h : r.serialize n = (some bs, r')) :
    (∀ b ∈ bs, b ∈ r.bytes) ∧ bs.length = n ∧ r'.bytes = r.bytes := by
  unfold Reader.serialize at h
  split at h
  · split at h
    · rename_i hcond hle
      injection h with h1 h2
      injection h1 with h1
      subst h1
      refine ⟨fun b hb => ?_, ?_, ?_⟩
      · exact List.drop_subset _ _ (List.take_subset _ _ hb)
      · rw [List.length_take, List.length_drop]
        omega
      · rw [← h2]
    · simp at h
  · simp at h

theorem serialize_bytes_eq (r : Reader) (n : Nat) : ((r.serialize n).2).bytes = r.bytes := by
  unfold Reader.serialize
  split
  · split <;> rfl
  · rfl

theorem readByte_wf (r : Reader) (dflt : Nat) (hw : wfBytes r.bytes) (hd : dflt < 256) :
    ((r.readByte dflt).1 < 256) ∧ ((r.readByte dflt).2).bytes = r.bytes := by
  unfold Reader.readByte
  rcases hs : r.serialize 1 with ⟨o, r'⟩
  have hb := serialize_bytes_eq r 1
  rw [hs] at hb
  rcases o with _ | bs
  · exact ⟨hd, hb⟩
  · obtain ⟨hsub, hlen, _⟩ := serialize_some_facts r 1 bs r' hs
    constructor
    · rcases bs with _ | ⟨b, rest⟩
      · simpa using hd
      · simpa using hw b (hsub b (by simp))
    · exact hb

theorem readInt32_wf (r : Reader) (hw : wfBytes r.bytes) :
    (-2147483648 ≤ (r.readInt32 0).1 ∧ (r.readInt32 0).1 < 2147483648)
      ∧ ((r.readInt32 0).2).bytes = r.bytes := by
  unfold Reader.readInt32
  rcases hs : r.serialize 4 with ⟨o, r'⟩
  have hb := serialize_bytes_eq r 4
  rw [hs] at hb
  rcases o with _ | bs
  · dsimp only
    exact ⟨by omega, hb⟩
  · dsimp only
    obtain ⟨hsub, hlen, _⟩ := serialize_some_facts r 4 bs r' hs
    have hwbs : ∀ b ∈ bs, b < 256 := fun b hbb => hw b (hsub b hbb)
    have h0 := getD_lt bs hwbs 0
    have h1 := getD_lt bs hwbs 1
    have h2 := getD_lt bs hwbs 2
    have h3 := getD_lt bs hwbs 3
    have := uint32ToInt32_range (fromLE4 (bs.getD 0 0) (bs.getD 1 0) (bs.getD 2 0) (bs.getD 3 0))
      (fromLE4_lt _ _ _ _ h0 h1 h2 h3)
    exact ⟨this, hb⟩

theorem readFString_wf (r : Reader) (hw : wfBytes r.bytes) :
    wfKey ((r.readFString).1) ∧ ((r.readFString).2).bytes = r.bytes := by
  unfold Reader.readFString
  rcases hri : r.readInt32 0 with ⟨saveNum, r1⟩
  dsimp only
  obtain ⟨⟨hlo, hhi⟩, hby⟩ := readInt32_wf r hw
  rw [hri] at hlo hhi hby
  dsimp at hlo hhi hby
  have hw1 : wfBytes r1.bytes := by rw [hby]; exact hw
  by_cases hneg : saveNum < 0
  · rw [if_pos hneg]
    by_cases hmin : saveNum = -2147483648
    · rw [if_pos hmin]
      exact ⟨⟨by simp, by simp⟩, hby⟩
    · rw [if_neg hmin]
      rcases hs : r1.serialize (2 * (-saveNum).toNat) with ⟨o, r2⟩
      have hb2 := serialize_bytes_eq r1 (2 * (-saveNum).toNat)
      rw [hs] at hb2
      rcases o with _ | bs
      · dsimp
        refine ⟨⟨fun c hc => ?_, ?_⟩, by rw [hb2, hby]⟩
        · have := List.eq_of_mem_replicate hc
          omega
        · have := List.length_replicate ((-saveNum).toNat - 1) (0 : Nat)
          simp [this]
          omega
      · dsimp
        obtain ⟨hsub, hlen, _⟩ := serialize_some_facts r1 _ bs r2 hs
        refine ⟨⟨fun c hc => ?_, ?_⟩, by rw [hb2, hby]⟩
        · have hc' : c ∈ pairUnits bs := List.take_subset _ _ hc
          exact pairUnits_lt bs (fun b hbb => hw1 b (hsub b hbb)) c hc'
        · have := List.length_take_le ((-saveNum).toNat - 1) (pairUnits bs)
          omega
  · rw [if_neg hneg]
    by_cases hz : saveNum = 0
    · rw [if_pos hz]
      exact ⟨⟨by simp, by simp⟩, hby⟩
    · rw [if_neg hz]
      rcases hs : r1.serialize saveNum.toNat with ⟨o, r2⟩
      have hb2 := serialize_bytes_eq r1 saveNum.toNat
      rw [hs] at hb2
      rcases o with _ | bs
      · dsimp
        refine ⟨⟨fun c hc => ?_, ?_⟩, by rw [hb2, hby]⟩
        · have := List.eq_of_mem_replicate hc
          omega
        · have := List.length_replicate (saveNum.toNat - 1) (0 : Nat)
          simp [this]
          omega
      · dsimp
        obtain ⟨hsub, hlen, _⟩ := serialize_some_facts r1 _ bs r2 hs
        refine ⟨⟨fun c hc => ?_, ?_⟩, by rw [hb2, hby]⟩
        · have hc' : c ∈ bs := List.take_subset _ _ hc
          have := hw1 c (hsub c hc')
          omega
        · have := List.length_take_le (saveNum.toNat - 1) bs
          omega

theorem readByteArray_wf (r : Reader) (hw : wfBytes r.bytes) :
    wfData ((r.readByteArray).1) ∧ ((r.readByteArray).2).bytes = r.bytes := by
  unfold Reader.readByteArray
  rcases hri : r.readInt32 0 with ⟨num, r1⟩
  dsimp only
  obtain ⟨⟨hlo, hhi⟩, hby⟩ := readInt32_wf r hw
  rw [hri] at hlo hhi hby
  dsimp at hlo hhi hby
  have hw1 : wfBytes r1.bytes := by rw [hby]; exact hw
  by_cases hneg : num < 0
  · rw [if_pos hneg]
    exact ⟨⟨by simp, by simp⟩, hby⟩
  · rw [if_neg hneg]
    by_cases hz : num = 0
    · rw [if_pos hz]
      exact ⟨⟨by simp, by simp⟩, hby⟩
    · rw [if_neg hz]
      rcases hs : r1.serialize num.toNat with ⟨o, r2⟩
      have hb2 := serialize_bytes_eq r1 num.toNat
      rw [hs] at hb2
      rcases o with _ | bs
      · dsimp
        refine ⟨⟨fun b hbb => ?_, ?_⟩, by rw [hb2, hby]⟩
        · have := List.eq_of_mem_replicate hbb
          omega
        · have := List.length_replicate num.toNat (0 : Nat)
          simp [this]
          omega
      · dsimp
        obtain ⟨hsub, hlen, _⟩ := serialize_some_facts r1 _ bs r2 hs
        refine ⟨⟨fun b hbb => hw1 b (hsub b hbb), ?_⟩, by rw [hb2, hby]⟩
        omega

theorem readRecord_wf (r : Reader) (hw : wfBytes r.bytes) :
    wfRecord ((r.readRecord).1) ∧ ((r.readRecord).2).bytes = r.bytes := by
  unfold Reader.readRecord
  rcases h1 : r.readByte 0 with ⟨t, r1⟩
  dsimp only
  obtain ⟨ht, hb1⟩ := readByte_wf r 0 hw (by omega)
  rw [h1] at ht hb1
  dsimp at ht hb1
  have hw1 : wfBytes r1.bytes := by rw [hb1]; exact hw
  rcases h2 : r1.readFString with ⟨k, r2⟩
  dsimp only
  obtain ⟨hk, hb2⟩ := readFString_wf r1 hw1
  rw [h2] at hk hb2
  dsimp at hk hb2
  have hw2 : wfBytes r2.bytes := by rw [hb2]; exact hw1
  rcases h3 : r2.readByteArray with ⟨d, r3⟩
  dsimp only
  obtain ⟨hd, hb3⟩ := readByteArray_wf r2 hw2
  rw [h3] at hd hb3
  dsimp at hd hb3
  exact ⟨⟨ht, hk, hd⟩, by rw [hb3, hb2, hb1]⟩

theorem readAllLoop_wf (fuel : Nat) (r : Reader) (acc : List FSerializedData)
    (recs : List FSerializedData) (rr : Reader)
    (hw : wfBytes r.bytes) (hacc : ∀ a ∈ acc, wfRecord a)
    (h : readAllLoop fuel r acc = some (recs, rr)) : wfRecords recs := by
  induction fuel generalizing r acc with
  | zero => simp [readAllLoop] at h
  | succ fuel ih =>
    unfold readAllLoop at h
    split at h
    · injection h with h'
      injection h' with h1 _
      subst h1
      intro a ha
      exact hacc a (by simpa using ha)
    · rcases hrr : r.readRecord with ⟨rec, r'⟩
      rw [hrr] at h
      obtain ⟨hrec, hbeq⟩ := readRecord_wf r hw
      rw [hrr] at hrec hbeq
      dsimp at hrec hbeq
      exact ih r' (rec :: acc) (by rw [hbeq]; exact hw)
        (fun a ha => by
          rcases List.mem_cons.mp ha with h' | h'
          · subst h'; exact hrec
          · exact hacc a h') h

theorem readAllRecords_wf (bytes : List Nat) (recs : List FSerializedData) (rr : Reader)
    (hw : wfBytes bytes) (h : readAllRecords bytes = some (recs, rr)) : wfRecords recs :=
  readAllLoop_wf (bytes.length + 1) (mkReader bytes) [] recs rr hw (by simp) h

end SaveLoad

namespace SaveLoad

/-! ## Key-comparison facts and list helpers -/

theorem caseEq_refl (x : List Nat) : caseEq x x = true := by
  simp [caseEq]

theorem caseEq_of_eq (x y : List Nat) (h : x = y) : caseEq x y = true := by
  subst h
  exact caseEq_refl x

theorem caseEq_false_trans (x y z : List Nat) (hxy : caseEq x y = true)
    (hyz : caseEq y z = false) : caseEq x z = false := by
  simp [caseEq] at hxy hyz ⊢
  rw [hxy]
  exact hyz

theorem find?_filter_of_imp {α : Type} (l : List α) (p q : α → Bool)
    (h : ∀ x, p x = true → q x = true) : (l.filter q).find? p = l.find? p := by
  induction l with
  | nil => simp
  | cons x rest ih =>
    by_cases hp : p x
    · have hq := h x hp
      simp [List.filter_cons, hq, List.find?_cons, hp]
    · by_cases hq : q x
      · simp [List.filter_cons, hq, List.find?_cons, hp, ih]
      · simp [List.filter_cons, hq, List.find?_cons, hp, ih]

theorem find?_append_left_none {α : Type} (l1 l2 : List α) (p : α → Bool)
    (h : l1.find? p = none) : (l1 ++ l2).find? p = l2.find? p := by
  induction l1 with
  | nil => simp
  | cons x rest ih =>
    rw [List.find?_cons] at h
    by_cases hp : p x
    · simp [hp] at h
    · simp only [List.cons_append, List.find?_cons, if_neg hp]
      simp only [hp] at h ⊢
      exact ih h

theorem filter_eq_of_pairwise (recs : List FSerializedData) (key : List Nat)
    (h : recs.Pairwise (fun a b => caseEq a.Key b.Key = false)) :
    (recs.filter (fun r => r.Key == key)).length ≤ 1 := by
  induction recs with
  | nil => simp
  | cons rec rest ih =>
    rw [List.pairwise_cons] at h
    obtain ⟨hhead, htail⟩ := h
    by_cases hk : rec.Key == key
    · have hnone : rest.filter (fun r => r.Key == key) = [] := by
        rw [List.filter_eq_nil_iff]
        intro b hb
        intro hbk
        have h1 : caseEq rec.Key b.Key = false := hhead b hb
        have h2 : rec.Key = key := by exact beq_iff_eq.mp hk
        have h3 : b.Key = key := by exact beq_iff_eq.mp (by simpa using hbk)
        rw [h2, h3] at h1
        rw [caseEq_refl] at h1
        exact absurd h1 (by simp)
      simp [List.filter_cons, hk, hnone]
    · rw [List.filter_cons, if_neg (by simpa using hk)]
      exact ih htail

end SaveLoad

namespace SaveLoad

/-! ## Behaviour of the operations on decodable stores -/

theorem SaveData_encodeAll (k d : List Nat) (t : Nat) (rs : List FSerializedData)
    (hwf : wfRecords rs) :
    SaveData k d t (some (encodeAll rs)) true true
      = some (true, some (encodeAll (rs.filter (fun e => !(caseEq e.Key k)) ++ [⟨t, k, d⟩]))) := by
  simp only [SaveData, if_true]
  rw [readAllRecords_encodeAll rs hwf]

theorem DeleteData_encodeAll (k : List Nat) (rs : List FSerializedData)
    (hwf : wfRecords rs) :
    DeleteData k (some (encodeAll rs)) true true
      = some (true, some (encodeAll (rs.filter (fun e => !(caseEq e.Key k))))) := by
  simp only [DeleteData, if_true]
  rw [readAllRecords_encodeAll rs hwf]

theorem LoadData_encodeAll (k : List Nat) (rs : List FSerializedData)
    (hwf : wfRecords rs) :
    LoadData k (some (encodeAll rs)) true
      = some ((rs.find? (fun r => caseEq r.Key k)).map (fun r => (r.Data, r.DataType)),
              some (encodeAll rs)) := by
  have h := loadLoop_at rs (encodeAll rs) [] k ((encodeAll rs).length + 1)
    (by simp) (by have := length_le_encodeAll rs; omega) hwf
  simp only [LoadData, if_true, mkReader]
  simp only [List.length_nil] at h
  rw [h]

theorem SaveData_true_inv (k d : List Nat) (t : Nat) (s s' : Option (List Nat))
    (ro wo : Bool) (hwf : wfStore s)
    (h : SaveData k d t s ro wo = some (true, s')) :
    ∃ recs, wfRecords recs
      ∧ s' = some (encodeAll (recs.filter (fun e => !(caseEq e.Key k)) ++ [⟨t, k, d⟩]))
      ∧ (∀ bytes, s = some bytes → ∃ rdr, readAllRecords bytes = some (recs, rdr))
      ∧ (s = none → recs = []) := by
  cases s with
  | none =>
    simp only [SaveData] at h
    cases wo with
    | false => simp at h
    | true =>
      simp at h
      refine ⟨[], by intro r hr; simp at hr, ?_, by simp, fun _ => rfl⟩
      simp [h]
  | some bytes =>
    simp only [SaveData] at h
    cases ro with
    | false => simp at h
    | true =>
      rw [if_pos rfl] at h
      rcases hra : readAllRecords bytes with _ | p
      · rw [hra] at h
        simp at h
      · rw [hra] at h
        rcases p with ⟨existing, rdr⟩
        dsimp only at h
        cases wo with
        | false => simp at h
        | true =>
          simp at h
          refine ⟨existing, readAllRecords_wf bytes existing rdr hwf hra, by simp [h], ?_, by simp⟩
          intro bytes' hb
          injection hb with hb
          subst hb
          exact ⟨rdr, hra⟩

theorem DeleteData_true_inv (k : List Nat) (s s' : Option (List Nat)) (ro wo : Bool)
    (hwf : wfStore s) (h : DeleteData k s ro wo = some (true, s')) :
    ∃ bytes recs rdr, s = some bytes ∧ readAllRecords bytes = some (recs, rdr)
      ∧ wfRecords recs
      ∧ s' = some (encodeAll (recs.filter (fun e => !(caseEq e.Key k)))) := by
  cases s with
  | none => simp [DeleteData] at h
  | some bytes =>
    simp only [DeleteData] at h
    cases ro with
    | false => simp at h
    | true =>
      rw [if_pos rfl] at h
      rcases hra : readAllRecords bytes with _ | p
      · rw [hra] at h
        simp at h
      · rw [hra] at h
        rcases p with ⟨existing, rdr⟩
        dsimp only at h
        cases wo with
        | false => simp at h
        | true =>
          simp at h
          exact ⟨bytes, existing, rdr, rfl, hra,
            readAllRecords_wf bytes existing rdr hwf hra, by simp [h]⟩

theorem wfRecords_filter (rs : List FSerializedData) (p : FSerializedData → Bool)
    (hwf : wfRecords rs) : wfRecords (rs.filter p) :=
  fun r hr => hwf r (List.mem_of_mem_filter hr)

theorem wfRecords_append (rs1 rs2 : List FSerializedData)
    (h1 : wfRecords rs1) (h2 : wfRecords rs2) : wfRecords (rs1 ++ rs2) := by
  intro r hr
  rcases List.mem_append.mp hr with h | h
  · exact h1 r h
  · exact h2 r h

end SaveLoad

namespace SaveLoad

theorem wfBytes_encodeInt32 (v : Int) : wfBytes (encodeInt32 v) := by
  intro b hb
  exact le4_lt _ b hb

theorem wfBytes_encodeFString (s : List Nat) : wfBytes (encodeFString s) := by
  intro b hb
  unfold encodeFString at hb
  split at hb
  · rename_i ha
    split at hb
    · exact le4_lt _ b hb
    · simp only [List.append_assoc, List.mem_append] at hb
      rcases hb with h | h | h
      · exact le4_lt _ b h
      · have := List.all_eq_true.mp ha b h
        simp at this
        omega
      · simp at h
        omega
  · simp only [List.append_assoc, List.mem_append] at hb
    rcases hb with h | h | h
    · exact le4_lt _ b h
    · exact encodeUnits_lt s b h
    · simp at h
      omega

theorem wfBytes_encodeRecord (rec : FSerializedData)
    (hd : ∀ b ∈ rec.Data, b < 256) : wfBytes (encodeRecord rec) := by
  intro b hb
  unfold encodeRecord at hb
  simp only [List.append_assoc, List.mem_append] at hb
  rcases hb with h | h | h | h
  · simp at h
    omega
  · exact wfBytes_encodeFString rec.Key b h
  · exact wfBytes_encodeInt32 _ b h
  · exact hd b h

theorem wfBytes_encodeAll (recs : List FSerializedData)
    (h : ∀ rec ∈ recs, ∀ b ∈ rec.Data, b < 256) : wfBytes (encodeAll recs) := by
  induction recs with
  | nil => intro b hb; simp [encodeAll] at hb
  | cons rec rest ih =>
    intro b hb
    unfold encodeAll at hb
    rcases List.mem_append.mp hb with h' | h'
    · exact wfBytes_encodeRecord rec (h rec (by simp)) b h'
    · exact ih (fun r hr => h r (by simp [hr])) b h'

end SaveLoad

namespace SaveLoad

/-- C2: a successful `SaveData(k, d, t, p)` followed by `LoadData(k, p)`
returns `true` with the out-parameters set to exactly `d` and `t`, whatever
the store held before the upsert. -/
theorem saveData_then_loadData (k d : List Nat) (t : Nat) (s0 s1 : Option (List Nat))
    (ro wo : Bool) (hwf : wfStore s0) (hk : wfKey k) (hd : wfData d) (ht : t < 256)
    (h : SaveData k d t s0 ro wo = some (true, s1)) :
    LoadData k s1 true = some (some (d, t), s1) := by
  obtain ⟨recs, hrecs, hs1, _, _⟩ := SaveData_true_inv k d t s0 s1 ro wo hwf h
  subst hs1
  have hwfL : wfRecords (recs.filter (fun e => !(caseEq e.Key k)) ++ [⟨t, k, d⟩]) :=
    wfRecords_append _ _ (wfRecords_filter recs _ hrecs)
      (by intro r hr; simp at hr; subst hr; exact ⟨ht, hk, hd⟩)
  rw [LoadData_encodeAll k _ hwfL]
  have hleft : (recs.filter (fun e => !(caseEq e.Key k))).find? (fun r => caseEq r.Key k) = none := by
    rw [List.find?_eq_none]
    intro x hx
    have hmem := List.of_mem_filter hx
    simp only [Bool.not_eq_true'] at hmem
    simp [hmem]
  rw [find?_append_left_none _ _ _ hleft]
  simp [List.find?_cons, caseEq_refl]

/-- C2 witness: the concrete scenario of the spec, on an initially absent
store file. -/
theorem saveData_then_loadData_witness :
    LoadData [72] (some (encodeAll [⟨2, [72], [42, 0, 0, 0]⟩])) true
      = some (some ([42, 0, 0, 0], 2), some (encodeAll [⟨2, [72], [42, 0, 0, 0]⟩])) :=
  saveData_then_loadData [72] [42, 0, 0, 0] 2 none
    (some (encodeAll [⟨2, [72], [42, 0, 0, 0]⟩])) true true trivial
    (by constructor
        · intro c hc; simp at hc; omega
        · simp)
    (by constructor
        · intro b hb; simp at hb; rcases hb with h | h | h | h <;> omega
        · simp)
    (by omega) (by decide)

end SaveLoad

namespace SaveLoad

/-- C1: after a successful `SaveData(k, d1, t1, p)` followed by a successful
`SaveData(k, d2, t2, p)`, decoding the store file yields exactly one record
with key `k`, and that record is `(k, d2, t2)`; moreover a successful
`SaveData` or `DeleteData` started from a store whose decoded records have
pairwise case-insensitively distinct keys leaves a store whose decoded records
again have pairwise distinct keys — in particular at most one record per
distinct key. -/
theorem saveData_unique_key_per_store :
    (∀ (k d1 d2 : List Nat) (t1 t2 : Nat) (s0 s1 s2 : Option (List Nat))
       (r1 w1 r2 w2 : Bool),
      wfStore s0 → wfKey k → wfData d1 → wfData d2 → t1 < 256 → t2 < 256 →
      SaveData k d1 t1 s0 r1 w1 = some (true, s1) →
      SaveData k d2 t2 s1 r2 w2 = some (true, s2) →
      ∃ bytes recs, s2 = some bytes ∧ decodeStore bytes = some recs ∧
        recs.filter (fun r => r.Key == k) = [⟨t2, k, d2⟩])
  ∧ (∀ (k d : List Nat) (t : Nat) (s s' : Option (List Nat)) (ro wo : Bool)
       (b' : List Nat) (recs' : List FSerializedData),
      wfStore s → wfKey k → wfData d → t < 256 →
      (∀ b recs rdr, s = some b → readAllRecords b = some (recs, rdr) →
        recs.Pairwise (fun x y => caseEq x.Key y.Key = false)) →
      SaveData k d t s ro wo = some (true, s') →
      s' = some b' → decodeStore b' = some recs' →
      recs'.Pairwise (fun x y => caseEq x.Key y.Key = false)
        ∧ ∀ key, (recs'.filter (fun r => r.Key == key)).length ≤ 1)
  ∧ (∀ (k : List Nat) (s s' : Option (List Nat)) (ro wo : Bool)
       (b' : List Nat) (recs' : List FSerializedData),
      wfStore s →
      (∀ b recs rdr, s = some b → readAllRecords b = some (recs, rdr) →
        recs.Pairwise (fun x y => caseEq x.Key y.Key = false)) →
      DeleteData k s ro wo = some (true, s') →
      s' = some b' → decodeStore b' = some recs' →
      recs'.Pairwise (fun x y => caseEq x.Key y.Key = false)
        ∧ ∀ key, (recs'.filter (fun r => r.Key == key)).length ≤ 1) := by
  refine ⟨?_, ?_, ?_⟩
  · intro k d1 d2 t1 t2 s0 s1 s2 r1 w1 r2 w2 hwf0 hk hd1 hd2 ht1 ht2 h1 h2
    obtain ⟨recs0, hrecs0, hs1, _, _⟩ := SaveData_true_inv k d1 t1 s0 s1 r1 w1 hwf0 h1
    have hwf1 : wfStore s1 := by
      rw [hs1]
      refine wfBytes_encodeAll _ ?_
      intro rec hr b hb
      rcases List.mem_append.mp hr with h' | h'
      · exact (hrecs0 rec (List.mem_of_mem_filter h')).2.2.1 b hb
      · simp at h'
        subst h'
        exact hd1.1 b hb
    obtain ⟨recs1, hrecs1, hs2, _, _⟩ := SaveData_true_inv k d2 t2 s1 s2 r2 w2 hwf1 h2
    have hwfL : wfRecords (recs1.filter (fun e => !(caseEq e.Key k)) ++ [⟨t2, k, d2⟩]) :=
      wfRecords_append _ _ (wfRecords_filter recs1 _ hrecs1)
        (by intro r hr; simp at hr; subst hr; exact ⟨ht2, hk, hd2⟩)
    refine ⟨_, _, hs2, decodeStore_encodeAll _ hwfL, ?_⟩
    rw [List.filter_append]
    have hleft : (recs1.filter (fun e => !(caseEq e.Key k))).filter (fun r => r.Key == k) = [] := by
      rw [List.filter_eq_nil_iff]
      intro r hr hkey
      have hne := List.of_mem_filter hr
      have heq : caseEq r.Key k = true := caseEq_of_eq _ _ (beq_iff_eq.mp (by simpa using hkey))
      simp [heq] at hne
    rw [hleft]
    simp
  · intro k d t s s' ro wo b' recs' hwf hk hd ht hpw h hs' hdec
    obtain ⟨recs, hrecs, hsEq, hlink, hnone⟩ := SaveData_true_inv k d t s s' ro wo hwf h
    have hpwrecs : recs.Pairwise (fun x y => caseEq x.Key y.Key = false) := by
      cases s with
      | none => rw [hnone rfl]; exact List.Pairwise.nil
      | some b =>
        obtain ⟨rdr, hra⟩ := hlink b rfl
        exact hpw b recs rdr rfl hra
    have hb' : b' = encodeAll (recs.filter (fun e => !(caseEq e.Key k)) ++ [⟨t, k, d⟩]) := by
      rw [hs'] at hsEq
      exact Option.some.inj hsEq
    have hwfL : wfRecords (recs.filter (fun e => !(caseEq e.Key k)) ++ [⟨t, k, d⟩]) :=
      wfRecords_append _ _ (wfRecords_filter recs _ hrecs)
        (by intro r hr; simp at hr; subst hr; exact ⟨ht, hk, hd⟩)
    have hrecs' : recs' = recs.filter (fun e => !(caseEq e.Key k)) ++ [⟨t, k, d⟩] := by
      rw [hb'] at hdec
      rw [decodeStore_encodeAll _ hwfL] at hdec
      exact (Option.some.inj hdec).symm
    subst hrecs'
    have hpw' : List.Pairwise (fun x y : FSerializedData => caseEq x.Key y.Key = false)
        (recs.filter (fun e => !(caseEq e.Key k)) ++ [⟨t, k, d⟩]) := by
      rw [List.pairwise_append]
      refine ⟨List.Pairwise.filter _ hpwrecs, by simp, ?_⟩
      intro a ha b hb
      simp at hb
      subst hb
      have := List.of_mem_filter ha
      simpa using this
    exact ⟨hpw', fun key => filter_eq_of_pairwise _ key hpw'⟩
  · intro k s s' ro wo b' recs' hwf hpw h hs' hdec
    obtain ⟨bytes, recs, rdr, hsEq, hra, hrecs, hout⟩ := DeleteData_true_inv k s s' ro wo hwf h
    have hpwrecs : recs.Pairwise (fun x y => caseEq x.Key y.Key = false) :=
      hpw bytes recs rdr hsEq hra
    have hb' : b' = encodeAll (recs.filter (fun e => !(caseEq e.Key k))) := by
      rw [hs'] at hout
      exact Option.some.inj hout
    have hrecs' : recs' = recs.filter (fun e => !(caseEq e.Key k)) := by
      rw [hb'] at hdec
      rw [decodeStore_encodeAll _ (wfRecords_filter recs _ hrecs)] at hdec
      exact (Option.some.inj hdec).symm
    subst hrecs'
    have hpw' : List.Pairwise (fun x y : FSerializedData => caseEq x.Key y.Key = false)
        (recs.filter (fun e => !(caseEq e.Key k))) := List.Pairwise.filter _ hpwrecs
    exact ⟨hpw', fun key => filter_eq_of_pairwise _ key hpw'⟩

/-- C1 witness: two concrete upserts under the key `"H"` starting from an
absent file leave exactly the one record of the second upsert. -/
theorem saveData_unique_key_per_store_witness :
    ∃ bytes recs,
      (some (encodeAll [⟨2, [72], [42, 0, 0, 0]⟩]) : Option (List Nat)) = some bytes
      ∧ decodeStore bytes = some recs
      ∧ recs.filter (fun r => r.Key == [72]) = [⟨2, [72], [42, 0, 0, 0]⟩] :=
  saveData_unique_key_per_store.1 [72] [1] [42, 0, 0, 0] 2 2 none
    (some (encodeAll [⟨2, [72], [1]⟩])) (some (encodeAll [⟨2, [72], [42, 0, 0, 0]⟩]))
    true true true true trivial
    (by constructor
        · intro c hc; simp at hc; omega
        · simp)
    (by constructor
        · intro b hb; simp at hb; omega
        · simp)
    (by constructor
        · intro b hb; simp at hb; rcases hb with h | h | h | h <;> omega
        · simp)
    (by omega) (by omega) (by decide) (by decide)

end SaveLoad

namespace SaveLoad

/-- C3: evaluation of `SaveData` on corrupt stored byte streams.  A one-byte
file `[2]` does not decode as a record sequence, yet `SaveData` accepts it as
a garbage record `⟨2, [], []⟩` (the key and payload reads fail, leaving the
modelled zero-initialized defaults), rewrites the file with that garbage
record still in it and returns `true`; the returned boolean and the fact that
the file is rewritten do not depend on the modelled defaults.  On the two-byte
corrupt file `[2, 5]` the decode loop can never terminate (`none`): the failed
key read freezes the cursor strictly inside the buffer while `AtEnd` stays
false.  In no case does `SaveData` detect the corruption, return `Failure`
and leave the file untouched. -/
theorem saveData_corrupt_input_behaviour :
    SaveData [72] [42, 0, 0, 0] 2 (some [2]) true true
      = some (true, some (encodeAll [⟨2, [], []⟩, ⟨2, [72], [42, 0, 0, 0]⟩]))
    ∧ encodeAll [⟨2, [], []⟩, ⟨2, [72], [42, 0, 0, 0]⟩] ≠ [2]
    ∧ SaveData [72] [42, 0, 0, 0] 2 (some [2, 5]) true true = none := by
  refine ⟨by decide, by decide, by decide⟩

/-- C4 counterexample: with the same key and the same one-record store file, a
failed read (`LoadFileToArray` returning `false`) and a clean read that finds
no matching key produce the *identical* observable result — `false` with the
out-parameters untouched.  The two failure outcomes are not distinguished. -/
theorem loadData_collapses_read_failure_and_absent :
    LoadData [88] (some (encodeAll [⟨2, [72], [42]⟩])) false
      = LoadData [88] (some (encodeAll [⟨2, [72], [42]⟩])) true
    ∧ LoadData [88] (some (encodeAll [⟨2, [72], [42]⟩])) false
      = some (none, some (encodeAll [⟨2, [72], [42]⟩])) := by
  refine ⟨by decide, by decide⟩

/-- C4 amended: `LoadData` returns `false` both on a read failure of an
existing file and when the decode reaches end-of-stream without a key match;
the caller cannot tell the two apart from the returned result (they differ
only in the log). -/
theorem loadData_failure_outcomes :
    (∀ (k bs : List Nat), LoadData k (some bs) false = some (none, some bs))
  ∧ (∀ (k : List Nat) (rs : List FSerializedData), wfRecords rs →
      (∀ r ∈ rs, caseEq r.Key k = false) →
      LoadData k (some (encodeAll rs)) true = some (none, some (encodeAll rs))) := by
  constructor
  · intro k bs
    simp [LoadData]
  · intro k rs hwf habs
    rw [LoadData_encodeAll k rs hwf]
    have hnone : rs.find? (fun r => caseEq r.Key k) = none := by
      rw [List.find?_eq_none]
      intro x hx
      simp [habs x hx]
    rw [hnone]
    rfl

/-- C4 amended witness: a read failure on a concrete store and a clean lookup
of an absent key on the same store both return `false`. -/
theorem loadData_failure_outcomes_witness :
    LoadData [88] (some (encodeAll [⟨2, [72], [42]⟩])) false
      = some (none, some (encodeAll [⟨2, [72], [42]⟩]))
    ∧ LoadData [88] (some (encodeAll [⟨2, [72], [42]⟩])) true
      = some (none, some (encodeAll [⟨2, [72], [42]⟩])) :=
  ⟨loadData_failure_outcomes.1 [88] (encodeAll [⟨2, [72], [42]⟩]),
   loadData_failure_outcomes.2 [88] [⟨2, [72], [42]⟩] (by decide) (by decide)⟩

/-- C7 counterexample: deleting key `"k"` from a store holding only key `"K"`.
No record's key equals `[107]`, yet the delete rewrites the file to a
*different* content (the `"K"` record is removed too, because key comparison
is case-insensitive) and still reports success — the rewritten content does
not equal the prior content although the key was absent. -/
theorem deleteData_absent_key_changes_content :
    DeleteData [107] (some (encodeAll [⟨2, [75], [1]⟩])) true true
      = some (true, some [])
    ∧ (∀ r ∈ [(⟨2, [75], [1]⟩ : FSerializedData)], r.Key ≠ [107])
    ∧ encodeAll [⟨2, [75], [1]⟩] ≠ [] := by
  refine ⟨by decide, by decide, by decide⟩

/-- C7 amended: `DeleteData` returns `Failure` when the file does not exist;
otherwise it removes every record whose key matches `k` *case-insensitively*,
rewrites the file and returns `Success`; when no record matches `k`
case-insensitively the rewritten content equals the prior content (but the
file is still rewritten and the call still reports `Success`). -/
theorem deleteData_semantics :
    (∀ (k : List Nat) (ro wo : Bool), DeleteData k none ro wo = some (false, none))
  ∧ (∀ (k : List Nat) (rs : List FSerializedData), wfRecords rs →
      DeleteData k (some (encodeAll rs)) true true
        = some (true, some (encodeAll (rs.filter (fun e => !(caseEq e.Key k))))))
  ∧ (∀ (k : List Nat) (rs : List FSerializedData), wfRecords rs →
      (∀ r ∈ rs, caseEq r.Key k = false) →
      DeleteData k (some (encodeAll rs)) true true = some (true, some (encodeAll rs))) := by
  refine ⟨?_, ?_, ?_⟩
  · intro k ro wo
    rfl
  · intro k rs hwf
    exact DeleteData_encodeAll k rs hwf
  · intro k rs hwf habs
    have hfix : rs.filter (fun e => !(caseEq e.Key k)) = rs := by
      rw [List.filter_eq_self]
      intro r hr
      simp [habs r hr]
    rw [DeleteData_encodeAll k rs hwf, hfix]

/-- C7 amended witness: deleting from an absent file fails; deleting an
unmatched key from a concrete one-record store rewrites the same content and
succeeds. -/
theorem deleteData_semantics_witness :
    DeleteData [88] none true true = some (false, none)
    ∧ DeleteData [88] (some (encodeAll [⟨2, [72], [42]⟩])) true true
      = some (true, some (encodeAll [⟨2, [72], [42]⟩])) :=
  ⟨deleteData_semantics.1 [88] true true,
   deleteData_semantics.2.2 [88] [⟨2, [72], [42]⟩] (by decide) (by decide)⟩

/-- C8 counterexample: keys `"A"` (`[65]`) and `"a"` (`[97]`) are distinct and
both stored.  Before the delete, `LoadData "a"` finds a record; after the
successful `DeleteData "A"`, `LoadData "a"` finds nothing — the delete did not
leave the other key's lookup unaffected, because key comparison is
case-insensitive. -/
theorem deleteData_removes_case_variant :
    ([65] : List Nat) ≠ [97]
    ∧ LoadData [97] (some (encodeAll [⟨2, [65], [7]⟩, ⟨3, [97], [9]⟩])) true
      = some (some ([7], 2), some (encodeAll [⟨2, [65], [7]⟩, ⟨3, [97], [9]⟩]))
    ∧ DeleteData [65] (some (encodeAll [⟨2, [65], [7]⟩, ⟨3, [97], [9]⟩])) true true
      = some (true, some [])
    ∧ LoadData [97] (some ([] : List Nat)) true = some (none, some []) := by
  refine ⟨by decide, by decide, by decide, by decide⟩

/-- C8 amended: for keys that are distinct *case-insensitively*, a successful
`DeleteData a` removes exactly the records whose key matches `a`
case-insensitively, preserving the relative order of the remainder, and the
result of `LoadData b` afterwards is the same as before the removal. -/
theorem deleteData_preserves_other_keys (a b : List Nat) (rs : List FSerializedData)
    (hwf : wfRecords rs) (hne : caseEq b a = false) :
    DeleteData a (some (encodeAll rs)) true true
      = some (true, some (encodeAll (rs.filter (fun e => !(caseEq e.Key a)))))
    ∧ (LoadData b (some (encodeAll (rs.filter (fun e => !(caseEq e.Key a))))) true).map
        (fun p => p.1)
      = (LoadData b (some (encodeAll rs)) true).map (fun p => p.1) := by
  refine ⟨DeleteData_encodeAll a rs hwf, ?_⟩
  rw [LoadData_encodeAll b rs hwf, LoadData_encodeAll b _ (wfRecords_filter rs _ hwf)]
  have hfind := find?_filter_of_imp rs (fun r => caseEq r.Key b) (fun e => !(caseEq e.Key a))
    (fun x hx => by
      have := caseEq_false_trans x.Key b a hx hne
      simp [this])
  rw [hfind]
  simp

/-- C8 amended witness: with `"H"` and `"S"` both stored, deleting `"H"`
leaves the lookup of `"S"` unchanged. -/
theorem deleteData_preserves_other_keys_witness :
    DeleteData [72] (some (encodeAll [⟨2, [72], [7]⟩, ⟨3, [83], [9]⟩])) true true
      = some (true, some (encodeAll [⟨3, [83], [9]⟩]))
    ∧ (LoadData [83] (some (encodeAll [⟨3, [83], [9]⟩])) true).map (fun p => p.1)
      = (LoadData [83] (some (encodeAll [⟨2, [72], [7]⟩, ⟨3, [83], [9]⟩])) true).map
          (fun p => p.1) := by
  have h := deleteData_preserves_other_keys [72] [83]
    [⟨2, [72], [7]⟩, ⟨3, [83], [9]⟩] (by decide) (by decide)
  have hfix : (List.filter (fun e => !(caseEq e.Key [72]))
      [(⟨2, [72], [7]⟩ : FSerializedData), ⟨3, [83], [9]⟩]) = [⟨3, [83], [9]⟩] := by decide
  rw [hfix] at h
  exact h

/-- C9: `LoadData` never writes: every terminating call returns the store file
contents exactly as they were, whether the lookup finds the key, misses it,
fails to read, or the file does not exist.  (This holds by construction of the
translation — the source of `LoadData` contains no `SaveArrayToFile` call —
and the theorem records it for every execution path.) -/
theorem loadData_preserves_store (k : List Nat) (s : Option (List Nat)) (ro : Bool)
    (res : Option (List Nat × Nat) × Option (List Nat)) (h : LoadData k s ro = some res) :
    res.2 = s := by
  cases s with
  | none =>
    simp only [LoadData, Option.some.injEq] at h
    subst h
    rfl
  | some bytes =>
    simp only [LoadData] at h
    cases ro with
    | false =>
      simp only [Bool.false_eq_true, if_false, Option.some.injEq] at h
      subst h
      rfl
    | true =>
      rw [if_pos rfl] at h
      rcases hl : loadLoop (bytes.length + 1) k (mkReader bytes) with _ | out
      · rw [hl] at h
        simp at h
      · rw [hl] at h
        simp only [Option.some.injEq] at h
        subst h
        rfl

/-- C9 witness: a concrete successful lookup leaves the concrete store
unchanged. -/
theorem loadData_preserves_store_witness :
    ((some ([42], 2), some (encodeAll [⟨2, [72], [42]⟩]))
        : Option (List Nat × Nat) × Option (List Nat)).2
      = some (encodeAll [⟨2, [72], [42]⟩]) :=
  loadData_preserves_store [72] (some (encodeAll [⟨2, [72], [42]⟩])) true _ (by decide)

end SaveLoad

namespace SaveLoad

theorem int_roundtrip (v : Int) (h1 : -2147483648 ≤ v) (h2 : v < 2147483648) :
    ByteArrayToInt (IntToByteArray v) = v := by
  have h := readInt32_at (encodeInt32 v) [] [] v 0 0 h1 h2 (by simp) rfl
  simp [ByteArrayToInt, IntToByteArray, mkReader, h]

theorem fstring_roundtrip (s : List Nat) (hwf : wfKey s) :
    ByteArrayToFString (FStringToByteArray s) = s := by
  have h := readFString_at (encodeFString s) [] [] s 0 hwf (by simp) rfl
  simp [ByteArrayToFString, FStringToByteArray, mkReader, h]

theorem float_roundtrip (bits : Nat) (h : bits < 4294967296) :
    ByteArrayToFloat (FloatToByteArray bits) = bits := by
  have hr := readUInt32_at (le4 bits) [] [] bits 0 0 h (by simp) rfl
  simp [ByteArrayToFloat, FloatToByteArray, mkReader, hr]

theorem transform_roundtrip (tr : FTransformBits) (hwf : wfTransform tr) :
    ByteArrayToTransform (TransformToByteArray tr) = tr := by
  obtain ⟨h1, h2, h3, h4, h5, h6, h7, h8, h9, h10⟩ := hwf
  have e1 : Reader.readUInt32 ⟨TransformToByteArray tr, 0, false⟩ 0
      = (tr.rotX, ⟨TransformToByteArray tr, 4, false⟩) :=
    readUInt32_at (TransformToByteArray tr) []
      (le4 tr.rotY ++ le4 tr.rotZ ++ le4 tr.rotW ++ le4 tr.transX ++ le4 tr.transY ++ le4 tr.transZ ++ le4 tr.scaleX ++ le4 tr.scaleY ++ le4 tr.scaleZ) tr.rotX 0 0 h1
      (by simp [TransformToByteArray, List.append_assoc]) rfl
  have e2 : Reader.readUInt32 ⟨TransformToByteArray tr, 4, false⟩ 0
      = (tr.rotY, ⟨TransformToByteArray tr, 8, false⟩) :=
    readUInt32_at (TransformToByteArray tr) (le4 tr.rotX)
      (le4 tr.rotZ ++ le4 tr.rotW ++ le4 tr.transX ++ le4 tr.transY ++ le4 tr.transZ ++ le4 tr.scaleX ++ le4 tr.scaleY ++ le4 tr.scaleZ) tr.rotY 0 4 h2
      (by simp [TransformToByteArray, List.append_assoc]) (by simp [le4])
  have e3 : Reader.readUInt32 ⟨TransformToByteArray tr, 8, false⟩ 0
      = (tr.rotZ, ⟨TransformToByteArray tr, 12, false⟩) :=
    readUInt32_at (TransformToByteArray tr) (le4 tr.rotX ++ le4 tr.rotY)
      (le4 tr.rotW ++ le4 tr.transX ++ le4 tr.transY ++ le4 tr.transZ ++ le4 tr.scaleX ++ le4 tr.scaleY ++ le4 tr.scaleZ) tr.rotZ 0 8 h3
      (by simp [TransformToByteArray, List.append_assoc]) (by simp [le4])
  have e4 : Reader.readUInt32 ⟨TransformToByteArray tr, 12, false⟩ oneBits
      = (tr.rotW, ⟨TransformToByteArray tr, 16, false⟩) :=
    readUInt32_at (TransformToByteArray tr) (le4 tr.rotX ++ le4 tr.rotY ++ le4 tr.rotZ)
      (le4 tr.transX ++ le4 tr.transY ++ le4 tr.transZ ++ le4 tr.scaleX ++ le4 tr.scaleY ++ le4 tr.scaleZ) tr.rotW oneBits 12 h4
      (by simp [TransformToByteArray, List.append_assoc]) (by simp [le4])
  have e5 : Reader.readUInt32 ⟨TransformToByteArray tr, 16, false⟩ 0
      = (tr.transX, ⟨TransformToByteArray tr, 20, false⟩) :=
    readUInt32_at (TransformToByteArray tr) (le4 tr.rotX ++ le4 tr.rotY ++ le4 tr.rotZ ++ le4 tr.rotW)
      (le4 tr.transY ++ le4 tr.transZ ++ le4 tr.scaleX ++ le4 tr.scaleY ++ le4 tr.scaleZ) tr.transX 0 16 h5
      (by simp [TransformToByteArray, List.append_assoc]) (by simp [le4])
  have e6 : Reader.readUInt32 ⟨TransformToByteArray tr, 20, false⟩ 0
      = (tr.transY, ⟨TransformToByteArray tr, 24, false⟩) :=
    readUInt32_at (TransformToByteArray tr) (le4 tr.rotX ++ le4 tr.rotY ++ le4 tr.rotZ ++ le4 tr.rotW ++ le4 tr.transX)
      (le4 tr.transZ ++ le4 tr.scaleX ++ le4 tr.scaleY ++ le4 tr.scaleZ) tr.transY 0 20 h6
      (by simp [TransformToByteArray, List.append_assoc]) (by simp [le4])
  have e7 : Reader.readUInt32 ⟨TransformToByteArray tr, 24, false⟩ 0
      = (tr.transZ, ⟨TransformToByteArray tr, 28, false⟩) :=
    readUInt32_at (TransformToByteArray tr) (le4 tr.rotX ++ le4 tr.rotY ++ le4 tr.rotZ ++ le4 tr.rotW ++ le4 tr.transX ++ le4 tr.transY)
      (le4 tr.scaleX ++ le4 tr.scaleY ++ le4 tr.scaleZ) tr.transZ 0 24 h7
      (by simp [TransformToByteArray, List.append_assoc]) (by simp [le4])
  have e8 : Reader.readUInt32 ⟨TransformToByteArray tr, 28, false⟩ oneBits
      = (tr.scaleX, ⟨TransformToByteArray tr, 32, false⟩) :=
    readUInt32_at (TransformToByteArray tr) (le4 tr.rotX ++ le4 tr.rotY ++ le4 tr.rotZ ++ le4 tr.rotW ++ le4 tr.transX ++ le4 tr.transY ++ le4 tr.transZ)
      (le4 tr.scaleY ++ le4 tr.scaleZ) tr.scaleX oneBits 28 h8
      (by simp [TransformToByteArray, List.append_assoc]) (by simp [le4])
  have e9 : Reader.readUInt32 ⟨TransformToByteArray tr, 32, false⟩ oneBits
      = (tr.scaleY, ⟨TransformToByteArray tr, 36, false⟩) :=
    readUInt32_at (TransformToByteArray tr) (le4 tr.rotX ++ le4 tr.rotY ++ le4 tr.rotZ ++ le4 tr.rotW ++ le4 tr.transX ++ le4 tr.transY ++ le4 tr.transZ ++ le4 tr.scaleX)
      (le4 tr.scaleZ) tr.scaleY oneBits 32 h9
      (by simp [TransformToByteArray, List.append_assoc]) (by simp [le4])
  have e10 : Reader.readUInt32 ⟨TransformToByteArray tr, 36, false⟩ oneBits
      = (tr.scaleZ, ⟨TransformToByteArray tr, 40, false⟩) :=
    readUInt32_at (TransformToByteArray tr) (le4 tr.rotX ++ le4 tr.rotY ++ le4 tr.rotZ ++ le4 tr.rotW ++ le4 tr.transX ++ le4 tr.transY ++ le4 tr.transZ ++ le4 tr.scaleX ++ le4 tr.scaleY)
      [] tr.scaleZ oneBits 36 h10
      (by simp [TransformToByteArray, List.append_assoc]) (by simp [le4])
  unfold ByteArrayToTransform mkReader
  rw [e1]
  dsimp only
  rw [e2]
  dsimp only
  rw [e3]
  dsimp only
  rw [e4]
  dsimp only
  rw [e5]
  dsimp only
  rw [e6]
  dsimp only
  rw [e7]
  dsimp only
  rw [e8]
  dsimp only
  rw [e9]
  dsimp only
  rw [e10]

/-- C5: every typed value codec pair round-trips: decoding the encoding of any
in-range value returns the value, for the int, bool, text (ASCII and
non-ASCII), float and transform pairs (floats and transforms are compared by
their bit patterns, which the archive copies verbatim). -/
theorem codec_roundtrip :
    (∀ v : Int, -2147483648 ≤ v → v < 2147483648 →
      ByteArrayToInt (IntToByteArray v) = v)
  ∧ (∀ b : Bool, ByteArrayToBool (BoolToByteArray b) = b)
  ∧ (∀ s : List Nat, wfKey s → ByteArrayToFString (FStringToByteArray s) = s)
  ∧ (∀ bits : Nat, bits < 4294967296 → ByteArrayToFloat (FloatToByteArray bits) = bits)
  ∧ (∀ tr : FTransformBits, wfTransform tr →
      ByteArrayToTransform (TransformToByteArray tr) = tr) := by
  refine ⟨int_roundtrip, ?_, fstring_roundtrip, float_roundtrip, transform_roundtrip⟩
  intro b
  cases b <;> decide

/-- C5 witness: the boundary values of the claim — `0`, `-1`, the minimum and
maximum 32-bit integers, `true`, the empty text, a non-ASCII text, a zero
float and the identity transform — all round-trip. -/
theorem codec_roundtrip_witness :
    ByteArrayToInt (IntToByteArray 0) = 0
    ∧ ByteArrayToInt (IntToByteArray (-1)) = -1
    ∧ ByteArrayToInt (IntToByteArray (-2147483648)) = -2147483648
    ∧ ByteArrayToInt (IntToByteArray 2147483647) = 2147483647
    ∧ ByteArrayToBool (BoolToByteArray true) = true
    ∧ ByteArrayToFString (FStringToByteArray []) = []
    ∧ ByteArrayToFString (FStringToByteArray [960, 65]) = [960, 65]
    ∧ ByteArrayToFloat (FloatToByteArray 0) = 0
    ∧ ByteArrayToTransform (TransformToByteArray ⟨0, 0, 0, oneBits, 0, 0, 0, oneBits, oneBits, oneBits⟩)
      = ⟨0, 0, 0, oneBits, 0, 0, 0, oneBits, oneBits, oneBits⟩ :=
  ⟨codec_roundtrip.1 0 (by omega) (by omega),
   codec_roundtrip.1 (-1) (by omega) (by omega),
   codec_roundtrip.1 (-2147483648) (by omega) (by omega),
   codec_roundtrip.1 2147483647 (by omega) (by omega),
   codec_roundtrip.2.1 true,
   codec_roundtrip.2.2.1 [] (by decide),
   codec_roundtrip.2.2.1 [960, 65] (by decide),
   codec_roundtrip.2.2.2.1 0 (by omega),
   codec_roundtrip.2.2.2.2 ⟨0, 0, 0, oneBits, 0, 0, 0, oneBits, oneBits, oneBits⟩ (by decide)⟩

/-- C6: the enumeration decoder always reads a single byte, whatever width the
encoder used: applied to the 32-bit encoding of `v` it returns exactly the
first byte `v % 256`, so for every value at or above `256` the decoded result
differs from the encoded value. -/
theorem enum_decode_reads_first_byte :
    (∀ v : Nat, ByteArrayToEnum (EnumToByteArrayU32 v) = v % 256)
  ∧ (∀ v : Nat, 256 ≤ v → v < 4294967296 → ByteArrayToEnum (EnumToByteArrayU32 v) ≠ v) := by
  have hbyte : ∀ v : Nat, ByteArrayToEnum (EnumToByteArrayU32 v) = v % 256 := by
    intro v
    have h := readByte_at (le4 v) [] [v / 256 % 256, v / 65536 % 256, v / 16777216 % 256]
      (v % 256) 0 0 (by simp [le4]) rfl
    simp [ByteArrayToEnum, EnumToByteArrayU32, mkReader, h]
  refine ⟨hbyte, ?_⟩
  intro v hlo hhi
  rw [hbyte v]
  omega

/-- C6 witness: the concrete misread at `v = 256`. -/
theorem enum_decode_reads_first_byte_witness :
    ByteArrayToEnum (EnumToByteArrayU32 300) = 44
    ∧ ByteArrayToEnum (EnumToByteArrayU32 256) ≠ 256 :=
  ⟨enum_decode_reads_first_byte.1 300,
   enum_decode_reads_first_byte.2 256 (by omega) (by omega)⟩

/-- C10: the fixed-width primitive decoders are total and return their
initialized default on inputs shorter than the expected width: on the empty
byte array `ByteArrayToInt` returns `0`, `ByteArrayToFloat` returns the bit
pattern of `0.0f`, `ByteArrayToBool` returns `false`, `ByteArrayToEnum`
returns `0`; more generally any buffer shorter than four bytes yields the
defaults of the three four-byte decoders. -/
theorem decoders_total_default :
    ByteArrayToInt [] = 0
    ∧ ByteArrayToFloat [] = 0
    ∧ ByteArrayToBool [] = false
    ∧ ByteArrayToEnum [] = 0
    ∧ (∀ bs : List Nat, bs.length < 4 →
        ByteArrayToInt bs = 0 ∧ ByteArrayToFloat bs = 0 ∧ ByteArrayToBool bs = false) := by
  refine ⟨by decide, by decide, by decide, by decide, ?_⟩
  intro bs hlen
  have hser : (mkReader bs).serialize 4 = (none, ⟨bs, 0, true⟩) := by
    have hc : ¬ (0 + 4 ≤ bs.length) := by omega
    simp [Reader.serialize, mkReader, hc]
  refine ⟨?_, ?_, ?_⟩
  · simp [ByteArrayToInt, Reader.readInt32, hser]
  · simp [ByteArrayToFloat, Reader.readUInt32, hser]
  · simp [ByteArrayToBool, Reader.readUInt32, hser]

/-- C10 witness: a one-byte buffer yields the three defaults. -/
theorem decoders_total_default_witness :
    ByteArrayToInt [1] = 0 ∧ ByteArrayToFloat [1] = 0 ∧ ByteArrayToBool [1] = false :=
  decoders_total_default.2.2.2.2 [1] (by norm_num)

end SaveLoad
